import Mathlib

/-!
Verification of the ingestion-and-retrieval core of the rag-file-explorer
repository.  The backend implementation (`backend/app/*.py`) is not present in
the source tree; only its documentation (`backend/README.md`,
`METADATA_SYSTEM.md`, `QUICK_START.md`) and the frontend TypeScript sources
are.  Backend components (chunker, query classifier, ingestion pipeline,
hybrid retriever) are therefore modelled from the specification and the
backend documentation; frontend functions (`formatFileSize`, the upload-queue
hook) are translated directly from the TypeScript sources.

Text is modelled as `List Char`, scores as `ℚ`.
-/

namespace RagExplorer

/-! ## Configuration (backend/README.md, `app/config.py` section) -/

/-- `CHUNK_SIZE = 400` from the documented RAG settings of `app/config.py`. -/
def CHUNK_SIZE : ℕ := 400

/-- `CHUNK_OVERLAP = 50` from the documented RAG settings of `app/config.py`. -/
def CHUNK_OVERLAP : ℕ := 50

/-! ## Chunker

Modelled from the spec: the Chunker of `app/document_processor.py` is not in
the source tree.  Spec §4.1: `chunk(text, size, overlap)` produces spans
`[i*(size-overlap), i*(size-overlap)+size)` clipped to `len(text)`,
continuing until the window's start exceeds `len(text)-1`; the final span may
be shorter than `size`; empty text yields zero chunks. -/

/-- Modelled from the spec: sliding-window span generation of the missing
`app/document_processor.py` chunker.  Emits `(start, stop)` while the start
does not exceed `n - 1`, advancing by `step = size - overlap`; `fuel` is an
upper bound on the number of windows (the caller passes `n`, which suffices
because the start strictly increases). -/
def chunkSpansAux (n size step : ℕ) : ℕ → ℕ → List (ℕ × ℕ)
  | 0, _ => []
  | fuel + 1, start =>
    if start ≤ n - 1 then
      (start, min (start + size) n) :: chunkSpansAux n size step fuel (start + step)
    else []

/-- Modelled from the spec: the chunk boundaries produced for a text of length
`n` with the given window `size` and `overlap` (spec §4.1).  Empty text yields
zero chunks. -/
def chunkSpans (n size overlap : ℕ) : List (ℕ × ℕ) :=
  if n = 0 then [] else chunkSpansAux n size (size - overlap) n 0

/-- Modelled from the spec: `chunk(text, size, overlap)` — the text spans cut
from the document text at the boundaries of `chunkSpans` (spec §4.1). -/
def chunk (text : List Char) (size overlap : ℕ) : List (List Char) :=
  (chunkSpans text.length size overlap).map (fun sp => (text.drop sp.1).take size)

/-- Closed form of a chunk span for window index `i`. -/
def spanOf (n size step i : ℕ) : ℕ × ℕ := (i * step, min (i * step + size) n)

/-- The number of windows a text of length `n` admits with stride `step`. -/
def chunkCount (n step : ℕ) : ℕ := if n = 0 then 0 else (n - 1) / step + 1

/-! ## Query Classifier

Modelled from the spec: `app/query_classifier.py` is not in the source tree.
Spec §4.5 and the backend documentation (`METADATA_SYSTEM.md`, "Query
Classification") describe two signal tables evaluated against the lower-cased
query, and the rule: both match → hybrid, only metadata → metadata, only
content → content, neither → content. -/

inductive QueryType where
  | metadata
  | content
  | hybrid
deriving DecidableEq, Repr

/-- Modelled from the spec: the METADATA_KEYWORDS single-token signal table —
file-type references (pdf, docx, doc, file), document-type names (invoice,
report, contract), attribution keywords (by, from), time references (2023,
q4), listing verbs (list, show, find), counting keywords (total, count). -/
def metadataTokens : List (List Char) :=
  (["pdf", "docx", "doc", "file", "invoice", "report", "contract",
    "by", "from", "2023", "q4", "list", "show", "find", "total",
    "count"] : List String).map (fun s => s.data)

/-- Modelled from the spec: multi-word metadata signal phrases (attribution
"authored by", time "last year", listing "show me"/"get all"/"find all",
counting "how many"). -/
def metadataPhrases : List (List Char) :=
  (["authored by", "last year", "show me", "get all", "find all",
    "how many"] : List String).map (fun s => s.data)

/-- Modelled from the spec: the CONTENT_KEYWORDS single-token signal table —
question words (what, how, why, when, where), information verbs (explain,
describe, define), content references (says, mentions, discusses),
understanding keywords (mean, meaning). -/
def contentTokens : List (List Char) :=
  (["what", "how", "why", "when", "where", "explain", "describe",
    "define", "says", "mentions", "discusses", "mean",
    "meaning"] : List String).map (fun s => s.data)

/-- Modelled from the spec: multi-word content signal phrases ("tell me"). -/
def contentPhrases : List (List Char) :=
  (["tell me"] : List String).map (fun s => s.data)

/-- The lower-cased query. -/
def lowerQuery (q : List Char) : List Char := q.map Char.toLower

/-- The whitespace-separated tokens of the lower-cased query. -/
def queryTokens (q : List Char) : List (List Char) :=
  ((lowerQuery q).splitOn ' ').filter (fun t => !t.isEmpty)

/-- Is `p` an initial segment of `l`? -/
def seqStarts : List Char → List Char → Bool
  | [], _ => true
  | _ :: _, [] => false
  | a :: as, b :: bs => a == b && seqStarts as bs

/-- Does `p` occur contiguously inside `l`? -/
def seqOccurs (p : List Char) : List Char → Bool
  | [] => seqStarts p []
  | c :: rest => seqStarts p (c :: rest) || seqOccurs p rest

/-- A signal table matches the query if one of its single tokens occurs as a
query token or one of its phrases occurs inside the lower-cased query. -/
def signalMatches (tokens phrases : List (List Char)) (q : List Char) : Bool :=
  (queryTokens q).any (fun t => tokens.contains t) ||
    phrases.any (fun p => seqOccurs p (lowerQuery q))

/-- Does the metadata-signal set fire on this query? -/
def hasMetadataSignal (q : List Char) : Bool :=
  signalMatches metadataTokens metadataPhrases q

/-- Does the content-signal set fire on this query? -/
def hasContentSignal (q : List Char) : Bool :=
  signalMatches contentTokens contentPhrases q

/-- Modelled from the spec: `classify(query_text)` of the missing
`app/query_classifier.py` — both signal sets match → hybrid; only metadata →
metadata; only content → content; neither → content (default). -/
def classify (q : List Char) : QueryType :=
  if hasMetadataSignal q && hasContentSignal q then .hybrid
  else if hasMetadataSignal q then .metadata
  else if hasContentSignal q then .content
  else .content

/-! ## Dual indexes and the Ingestion Pipeline

Modelled from the spec: `app/vector_store.py`, `app/metadata_store.py`,
`app/rag_pipeline.py` and the upload router are not in the source tree.  The
backend documentation describes two ChromaDB collections — `document_chunks`
(content, one row per chunk carrying its parent `document_id`) and
`document_metadata` (one record per document) — written by a synchronous
ingestion that rolls partial writes back on embedding/index-write failure
(spec §4.4), stores degraded AI metadata on generation failure (spec §4.2),
and is inverted by an idempotent delete. -/

abbrev DocId := List Char

/-- One row of the Content Index (`document_chunks` collection): chunk text
with its parent `document_id` and 0-based `chunk_index`. -/
structure ChunkRow where
  document_id : DocId
  chunk_index : ℕ
  text : List Char
deriving DecidableEq

/-- One record of the Metadata Index (`document_metadata` collection): the
AI-generated fields the claims are about. -/
structure MetaRecord where
  document_id : DocId
  ai_summary : Option (List Char)
  ai_document_type : List Char
  ai_keywords : List (List Char)
deriving DecidableEq

/-- The two logical collections owned by the core. -/
structure IndexState where
  content : List ChunkRow
  metadata : List MetaRecord
deriving DecidableEq

/-- The state before any ingestion. -/
def emptyState : IndexState := ⟨[], []⟩

/-- Failure modes of AI metadata generation (spec §4.2, §5: language-service
unavailable, malformed output, explicit timeout). -/
inductive AIError where
  | timeout
  | unavailable
  | malformed
deriving DecidableEq

/-- Successful AI metadata generation output. -/
structure AIFields where
  summary : List Char
  keywords : List (List Char)
  docType : List Char
deriving DecidableEq

/-- Modelled from the spec: the fixed closed document-type vocabulary of
`app/ai_metadata_generator.py` (backend documentation, "AI-Generated
Metadata"). -/
def documentTypes : List (List Char) :=
  (["invoice", "contract", "report", "presentation", "spreadsheet",
    "resume", "letter", "memo", "manual", "guide", "policy",
    "academic_paper", "research_paper", "thesis", "article",
    "meeting_notes", "technical_documentation", "user_guide",
    "marketing_material", "financial_statement", "legal_document",
    "general", "other"] : List String).map (fun s => s.data)

/-- Modelled from the spec: model output outside the closed vocabulary is
mapped to "other" (spec §4.2). -/
def normalizeDocType (t : List Char) : List Char :=
  if documentTypes.contains t then t else ("other".data)

/-- Modelled from the spec: the metadata record stored for a document given
the AI generation outcome — on failure the record keeps `ai_summary = null`
and `ai_document_type = "other"` (spec §4.2). -/
def applyAI (d : DocId) (r : Except AIError AIFields) : MetaRecord :=
  match r with
  | .ok f => ⟨d, some f.summary, normalizeDocType f.docType, f.keywords⟩
  | .error _ => ⟨d, none, ("other".data), []⟩

/-- Hard ingestion failures (spec §7). -/
inductive IngestError where
  | extractionFailure
  | indexWriteFailure
deriving DecidableEq

/-- Compensating delete: remove every row carrying `document_id = d` from
both collections (spec §4.4). -/
def removeDoc (s : IndexState) (d : DocId) : IndexState :=
  ⟨s.content.filter (fun r => !(decide (r.document_id = d))),
    s.metadata.filter (fun m => !(decide (m.document_id = d)))⟩

/-- Modelled from the spec: write the document's chunks into the Content
Index one at a time; `writeOk i` is the embed/index-write collaborator's
outcome for chunk `i`, and the first failure stops the writes (spec §4.4).
Returns the error, if any, and the state including the partial writes. -/
def writeChunksAux (d : DocId) (writeOk : ℕ → Bool) :
    IndexState → ℕ → List (List Char) → Option IngestError × IndexState
  | s, _, [] => (none, s)
  | s, i, c :: cs =>
    if writeOk i then
      writeChunksAux d writeOk ⟨s.content ++ [⟨d, i, c⟩], s.metadata⟩ (i + 1) cs
    else (some .indexWriteFailure, s)

/-- Modelled from the spec: the synchronous ingestion pipeline of
`app/rag_pipeline.py` / the upload router (spec §4.4).  `text` is the
extracted document text (extraction yielding no text aborts before any index
write), `ai` the AI-metadata generation outcome, `writeOk` the per-chunk
embed/index-write outcomes and `metaWriteOk` the metadata-record write
outcome.  Chunk or metadata write failure aborts and rolls back every partial
write for this `document_id`; AI generation failure does not abort (degraded
record per `applyAI`).  Returns the error, if any, and the post state. -/
def ingest (s : IndexState) (d : DocId) (text : List Char)
    (ai : Except AIError AIFields) (writeOk : ℕ → Bool) (metaWriteOk : Bool) :
    Option IngestError × IndexState :=
  if text.isEmpty then (some .extractionFailure, s)
  else
    match writeChunksAux d writeOk s 0 (chunk text CHUNK_SIZE CHUNK_OVERLAP) with
    | (some e, s1) => (some e, removeDoc s1 d)
    | (none, s1) =>
      if metaWriteOk then (none, ⟨s1.content, s1.metadata ++ [applyAI d ai]⟩)
      else (some .indexWriteFailure, removeDoc s1 d)

/-- The declared result type of the exposed delete operation
(spec §6: `delete_document(document_id) -> success | NotFound`). -/
inductive DeleteResult where
  | success
  | notFound
deriving DecidableEq

/-- Modelled from the spec: deletion removes all chunks for `document_id`
from the Content Index and the metadata record from the Metadata Index;
deleting a non-existent id is a no-op success, not an error (spec §4.4). -/
def delete_document (s : IndexState) (d : DocId) : DeleteResult × IndexState :=
  (.success, removeDoc s d)

/-- Neither collection holds any row for `d`. -/
def noTrace (s : IndexState) (d : DocId) : Prop :=
  (∀ r ∈ s.content, r.document_id ≠ d) ∧ (∀ m ∈ s.metadata, m.document_id ≠ d)

instance noTraceDecidable (s : IndexState) (d : DocId) : Decidable (noTrace s d) := by
  unfold noTrace
  infer_instance

/-- Dual-index consistency: a document id appears in the Metadata Index iff
at least one chunk carrying it appears in the Content Index (spec §3). -/
def consistent (s : IndexState) : Prop :=
  ∀ d : DocId, (∃ m ∈ s.metadata, m.document_id = d) ↔
    (∃ r ∈ s.content, r.document_id = d)

/-- The states reachable from the empty system by completed ingestions
(successful or rolled back) and deletions. -/
inductive Reachable : IndexState → Prop where
  | empty : Reachable emptyState
  | ingested (s : IndexState) (d : DocId) (text : List Char)
      (ai : Except AIError AIFields) (writeOk : ℕ → Bool) (metaWriteOk : Bool) :
      Reachable s → Reachable (ingest s d text ai writeOk metaWriteOk).2
  | deleted (s : IndexState) (d : DocId) :
      Reachable s → Reachable (delete_document s d).2

/-! ## Hybrid Retriever

Modelled from the spec: the hybrid path of `app/rag_pipeline.py` /
`app/routers/chat.py` is not in the source tree.  Spec §4.6: run both paths;
a `document_id` present in both result sets gets
`aggregated_score = w_meta * document_score + w_content * chunk_score`
(fixed configuration, default equal weighting); a document present in only
one result set uses that set's score, tagged with which path supplied it;
the final ranking sorts by `aggregated_score` descending with ties broken by
`document_id` lexical order. -/

/-- Which retrieval path supplied a document's aggregated score. -/
inductive ScoreSource where
  | both
  | metadataOnly
  | contentOnly
deriving DecidableEq, Repr

/-- One entry of the hybrid retriever's merged, ranked result list. -/
structure HybridResult where
  document_id : DocId
  aggregated_score : ℚ
  source : ScoreSource
deriving DecidableEq

/-- Modelled from the spec: the fixed metadata weight of the hybrid score
combination, default equal weighting (spec §4.6).  The weights are equal and
unnormalized; this is the reading under which the spec's own hybrid-ranking
property (§8: document B with scores 0.3 and 0.95 outranks metadata-only
document A with score 0.9) holds. -/
def w_meta : ℚ := 1

/-- Modelled from the spec: the fixed content weight, equal to `w_meta`
(default equal weighting, spec §4.6). -/
def w_content : ℚ := 1

/-- First score recorded for `d` in a path's result set (association-list
lookup by `document_id`). -/
def findScore : List (DocId × ℚ) → DocId → Option ℚ
  | [], _ => none
  | p :: ps, d => if p.1 = d then some p.2 else findScore ps d

/-- Modelled from the spec: the aggregated score and source tag of document
`d` given the two paths' result sets (spec §4.6) — weighted sum when present
in both, the single path's score otherwise, nothing when in neither. -/
def aggScore (meta content : List (DocId × ℚ)) (d : DocId) :
    Option (ℚ × ScoreSource) :=
  match findScore meta d, findScore content d with
  | some ds, some cs => some (w_meta * ds + w_content * cs, .both)
  | some ds, none => some (ds, .metadataOnly)
  | none, some cs => some (cs, .contentOnly)
  | none, none => none

/-- The document ids present in either result set, metadata path first,
without duplicating ids present in both. -/
def keysUnion (meta content : List (DocId × ℚ)) : List DocId :=
  meta.map Prod.fst ++
    (content.map Prod.fst).filter (fun d => !(decide (d ∈ meta.map Prod.fst)))

/-- Modelled from the spec: the merged (unranked) hybrid result set — one
entry per document present in at least one path (spec §4.6). -/
def hybridAggregate (meta content : List (DocId × ℚ)) : List HybridResult :=
  (keysUnion meta content).filterMap
    (fun d => (aggScore meta content d).map (fun p => ⟨d, p.1, p.2⟩))

/-- Lexical (by character code) order on document ids, used as the
deterministic tie-break. -/
def idLe : List Char → List Char → Bool
  | [], _ => true
  | _ :: _, [] => false
  | a :: as, b :: bs =>
    if a.toNat < b.toNat then true
    else if b.toNat < a.toNat then false
    else idLe as bs

/-- The hybrid ranking order: higher `aggregated_score` first, ties broken by
`document_id` lexical order (spec §4.6). -/
def rankRel (a b : HybridResult) : Prop :=
  b.aggregated_score < a.aggregated_score ∨
    (a.aggregated_score = b.aggregated_score ∧ idLe a.document_id b.document_id = true)

instance rankRelDecidable : DecidableRel rankRel := fun a b => by
  unfold rankRel
  infer_instance

/-- Modelled from the spec: the final hybrid ranking — the merged result set
sorted by `aggregated_score` descending, ties broken by `document_id` lexical
order (spec §4.6). -/
def hybridRank (meta content : List (DocId × ℚ)) : List HybridResult :=
  List.insertionSort rankRel (hybridAggregate meta content)

/-! ## Frontend: the three `formatFileSize` copies

Translated from the TypeScript sources: `frontend/lib/utils.ts` (42–47),
`frontend/components/documents/document-card.tsx` (27–32) and the document
detail page.  Each takes a size in megabytes; below 1 MB it renders whole
kilobytes (`toFixed(0)`), otherwise megabytes — with `toFixed(1)` in the
first two copies and `toFixed(2)` in the detail page. -/

/-- JavaScript `Number.prototype.toFixed(d)` for a nonnegative rational:
round to `d` decimal places, halves away from zero, rendered with exactly
`d` digits after the point (no point when `d = 0`). -/
def toFixedChars (d : ℕ) (x : ℚ) : List Char :=
  if d = 0 then (Nat.repr (⌊x * 10 ^ d + 1 / 2⌋).toNat).data
  else
    (Nat.repr ((⌊x * 10 ^ d + 1 / 2⌋).toNat / 10 ^ d)).data ++
      ('.' :: (List.replicate
          (d - (Nat.repr ((⌊x * 10 ^ d + 1 / 2⌋).toNat % 10 ^ d)).data.length) '0' ++
        (Nat.repr ((⌊x * 10 ^ d + 1 / 2⌋).toNat % 10 ^ d)).data))

/-- `formatFileSize` from `frontend/lib/utils.ts` lines 42–47. -/
def formatFileSize_utils (sizeInMb : ℚ) : List Char :=
  if sizeInMb < 1 then toFixedChars 0 (sizeInMb * 1024) ++ (" KB".data)
  else toFixedChars 1 sizeInMb ++ (" MB".data)

/-- `formatFileSize` from
`frontend/components/documents/document-card.tsx` lines 27–32. -/
def formatFileSize_card (sizeInMb : ℚ) : List Char :=
  if sizeInMb < 1 then toFixedChars 0 (sizeInMb * 1024) ++ (" KB".data)
  else toFixedChars 1 sizeInMb ++ (" MB".data)

/-- `formatFileSize` from the document detail page
(`app/explorer/[id]/page.tsx`, lines 45–50): `toFixed(2)` in the MB
branch. -/
def formatFileSize_detail (sizeInMb : ℚ) : List Char :=
  if sizeInMb < 1 then toFixedChars 0 (sizeInMb * 1024) ++ (" KB".data)
  else toFixedChars 2 sizeInMb ++ (" MB".data)

/-! ## Frontend: upload queue hook

Translated from `frontend/lib/hooks/use-upload-queue.ts`.  The hook's
`validateFile` collaborator (`lib/api/upload.ts`) is not in the source tree;
its result shape `{ isValid, error }` is taken from the call sites. -/

/-- `UploadStatus` from `use-upload-queue.ts` line 17. -/
inductive UploadStatus where
  | pending
  | uploading
  | completed
  | failed
deriving DecidableEq, Repr

/-- `QueuedFile` from `use-upload-queue.ts` lines 22–30 (the `file` payload
itself is irrelevant to the queue logic and omitted). -/
structure QueuedFile where
  id : ℕ
  status : UploadStatus
  progress : ℕ
  error : Option (List Char)
  response : Option (List Char)
  validationError : Option (List Char)
deriving DecidableEq

/-- Result shape of the client-side `validateFile` collaborator. -/
structure ValidationResult where
  isValid : Bool
  error : Option (List Char)
deriving DecidableEq

/-- One enqueued item of `addFiles` (use-upload-queue.ts 101–111): status
"pending" when valid, "failed" when not, the validation error recorded in
both `validationError` and `error`, progress 0. -/
def enqueueFile (newId : ℕ) (v : ValidationResult) : QueuedFile :=
  ⟨newId, if v.isValid then .pending else .failed, 0, v.error, none, v.error⟩

/-- `addFiles` (use-upload-queue.ts 98–114): append the enqueued items. -/
def addFiles (q : List QueuedFile) (newFiles : List (ℕ × ValidationResult)) :
    List QueuedFile :=
  q ++ newFiles.map (fun f => enqueueFile f.1 f.2)

/-- The queue processor's selection (use-upload-queue.ts 140–142): the first
item whose status is "pending" and whose `validationError` is absent. -/
def nextPendingItem (q : List QueuedFile) : Option QueuedFile :=
  q.find? (fun it => decide (it.status = .pending) && it.validationError.isNone)

/-- The update merged into an item when its upload starts
(use-upload-queue.ts 147). -/
def markUploading (it : QueuedFile) : QueuedFile :=
  ⟨it.id, .uploading, 50, it.error, it.response, it.validationError⟩

/-- The update merged on upload success (use-upload-queue.ts 154–158). -/
def markCompleted (r : List Char) (it : QueuedFile) : QueuedFile :=
  ⟨it.id, .completed, 100, it.error, some r, it.validationError⟩

/-- The update merged on upload failure (use-upload-queue.ts 161–165). -/
def markFailed (msg : List Char) (it : QueuedFile) : QueuedFile :=
  ⟨it.id, .failed, 0, some msg, it.response, it.validationError⟩

/-- `updateFile` (use-upload-queue.ts 89–93): merge an update into the item
with the given id. -/
def updateFile (q : List QueuedFile) (i : ℕ) (f : QueuedFile → QueuedFile) :
    List QueuedFile :=
  q.map (fun it => if it.id = i then f it else it)

/-- `processQueue` (use-upload-queue.ts 126–179): repeatedly select the next
pending validation-clean item, mark it uploading, run the upload mutation
(`upload` is each id's outcome) and mark it completed or failed; stop when no
such item remains.  Returns the final queue and the ids passed to the upload
mutation, in order.  `fuel` bounds the iterations; the caller passes the
queue length, which suffices because every iteration turns one pending item
into a non-pending one. -/
def processQueueAux (upload : ℕ → Except (List Char) (List Char)) :
    ℕ → List QueuedFile → List QueuedFile × List ℕ
  | 0, q => (q, [])
  | fuel + 1, q =>
    match nextPendingItem q with
    | none => (q, [])
    | some it =>
      match upload it.id with
      | .ok r =>
        let out := processQueueAux upload fuel
          (updateFile (updateFile q it.id markUploading) it.id (markCompleted r))
        (out.1, it.id :: out.2)
      | .error msg =>
        let out := processQueueAux upload fuel
          (updateFile (updateFile q it.id markUploading) it.id (markFailed msg))
        (out.1, it.id :: out.2)

/-- The sequential upload loop started by `startUpload`. -/
def processQueue (upload : ℕ → Except (List Char) (List Char))
    (q : List QueuedFile) : List QueuedFile × List ℕ :=
  processQueueAux upload q.length q

/-! ## Theorems -/

theorem chunkSpansAux_closed_form (n size step : ℕ) (hstep : 0 < step) (hn : n ≠ 0) :
    ∀ fuel j, chunkCount n step - j ≤ fuel →
      chunkSpansAux n size step fuel (j * step) =
        ((List.range (chunkCount n step - j)).map
          (fun i => spanOf n size step (j + i))) := by
  intro fuel
  induction fuel with
  | zero =>
    intro j hfuel
    rw [Nat.le_zero] at hfuel
    simp [chunkSpansAux, hfuel]
  | succ fuel ih =>
    intro j hfuel
    by_cases hj : j * step ≤ n - 1
    · have hjle : j ≤ (n - 1) / step := (Nat.le_div_iff_mul_le hstep).2 hj
      have hcnt : chunkCount n step - j = (chunkCount n step - (j + 1)) + 1 := by
        simp only [chunkCount, if_neg hn]
        omega
      rw [chunkSpansAux, if_pos hj, hcnt, List.range_succ_eq_map, List.map_cons,
        List.map_map]
      have hrec := ih (j + 1) (by omega)
      rw [show j * step + step = (j + 1) * step by ring, hrec]
      refine congrArg₂ List.cons (by simp [spanOf]) ?_
      exact List.map_congr_left
        (fun i _ => congrArg (spanOf n size step) (by omega))
    · have hgt : ¬ j ≤ (n - 1) / step :=
        fun h => hj ((Nat.le_div_iff_mul_le hstep).1 h)
      have hcnt0 : chunkCount n step - j = 0 := by
        simp only [chunkCount, if_neg hn]
        omega
      rw [chunkSpansAux, if_neg hj, hcnt0]
      simp

theorem chunkSpans_closed_form (n size overlap : ℕ) (h : overlap < size) :
    chunkSpans n size overlap =
      (List.range (chunkCount n (size - overlap))).map
        (fun i => spanOf n size (size - overlap) i) := by
  set step := size - overlap with hstepdef
  have hstep : 0 < step := by omega
  by_cases hn : n = 0
  · simp [chunkSpans, chunkCount, hn]
  · rw [chunkSpans, if_neg hn]
    have hfuel : chunkCount n step - 0 ≤ n := by
      have : (n - 1) / step ≤ n - 1 := Nat.div_le_self _ _
      simp only [chunkCount, if_neg hn]
      omega
    have hcf := chunkSpansAux_closed_form n size step hstep hn n 0 hfuel
    rw [show (0 : ℕ) * step = 0 by ring] at hcf
    rw [hcf]
    simp

theorem chunkCount_lt_iff (n step : ℕ) (hstep : 0 < step) (i : ℕ) :
    i < chunkCount n step ↔ (n ≠ 0 ∧ i * step ≤ n - 1) := by
  by_cases hn : n = 0
  · simp [chunkCount, hn]
  · rw [chunkCount, if_neg hn]
    simp only [ne_eq, hn, not_false_eq_true, true_and]
    rw [Nat.lt_succ_iff, Nat.le_div_iff_mul_le hstep]

/-- C2: for `0 ≤ overlap < size`, the chunker produces exactly the spans
`[i*(size-overlap), i*(size-overlap)+size)` clipped to the text length, for the
window indices `i` whose start does not exceed `len(text)-1`; empty text
yields zero chunks; and for `N = 1000`, `size = 400`, `overlap = 50` it
produces exactly `ceil((N-overlap)/(size-overlap)) = 3` chunks with boundaries
`[0,400)`, `[350,750)`, `[700,1000)`. -/
theorem chunker_produces_clipped_sliding_spans (text : List Char) (size overlap : ℕ)
    (h : overlap < size) :
    (chunkSpans text.length size overlap =
      (List.range (chunkCount text.length (size - overlap))).map
        (fun i => (i * (size - overlap), min (i * (size - overlap) + size) text.length)))
    ∧ (∀ i, i < chunkCount text.length (size - overlap) ↔
        (text ≠ [] ∧ i * (size - overlap) ≤ text.length - 1))
    ∧ (text = [] → chunk text size overlap = [])
    ∧ chunkSpans 1000 400 50 = [(0, 400), (350, 750), (700, 1000)]
    ∧ (chunkSpans 1000 400 50).length = (1000 - 50 + ((400 - 50) - 1)) / (400 - 50) := by
  have hstep : 0 < size - overlap := by omega
  refine ⟨?_, ?_, ?_, ?_, ?_⟩
  · rw [chunkSpans_closed_form text.length size overlap h]
    simp [spanOf]
  · intro i
    rw [chunkCount_lt_iff text.length (size - overlap) hstep i]
    simp
  · intro he
    simp [chunk, chunkSpans, he]
  · decide
  · decide

theorem chunker_produces_clipped_sliding_spans_witness :
    (50 : ℕ) < 400 ∧ chunkSpans 1000 400 50 = [(0, 400), (350, 750), (700, 1000)] :=
  ⟨by decide,
    (chunker_produces_clipped_sliding_spans [] 400 50 (by decide)).2.2.2.1⟩

/-- C8: chunking is deterministic — two runs of `chunk` on identical inputs
(identical text and identical `(size, overlap)` parameters) yield identical
chunk sequences. -/
theorem chunk_deterministic (t₁ t₂ : List Char) (s₁ s₂ o₁ o₂ : ℕ)
    (ht : t₁ = t₂) (hs : s₁ = s₂) (ho : o₁ = o₂) :
    chunk t₁ s₁ o₁ = chunk t₂ s₂ o₂ := by
  subst ht
  subst hs
  subst ho
  rfl

theorem chunk_deterministic_witness :
    chunk ("hello world".data) CHUNK_SIZE CHUNK_OVERLAP =
      chunk ("hello world".data) CHUNK_SIZE CHUNK_OVERLAP :=
  chunk_deterministic _ _ _ _ _ _ rfl rfl rfl

/-- C3: `classify` evaluates the two signal sets against the lower-cased
query and returns hybrid when both match, metadata when only the metadata set
matches, and content when only the content set matches or neither matches;
concretely "list pdf reports" classifies as metadata, "what does the report
say about revenue" as hybrid, and "explain the refund policy" as content. -/
theorem classify_follows_signal_rule (q : List Char) :
    (classify q = .hybrid ↔ (hasMetadataSignal q ∧ hasContentSignal q))
    ∧ (classify q = .metadata ↔ (hasMetadataSignal q ∧ ¬ hasContentSignal q))
    ∧ (classify q = .content ↔ ¬ hasMetadataSignal q)
    ∧ classify ("list pdf reports".data) = .metadata
    ∧ classify ("what does the report say about revenue".data) = .hybrid
    ∧ classify ("explain the refund policy".data) = .content := by
  refine ⟨?_, ?_, ?_, by decide, by decide, by decide⟩
  all_goals
    unfold classify
    cases hm : hasMetadataSignal q <;> cases hc : hasContentSignal q <;> simp

theorem classify_follows_signal_rule_witness :
    classify ("list pdf reports".data) = QueryType.metadata :=
  (classify_follows_signal_rule ("list pdf reports".data)).2.2.2.1

theorem noTrace_removeDoc (s : IndexState) (d : DocId) :
    noTrace (removeDoc s d) d := by
  constructor <;> intro x hx <;> rw [removeDoc, List.mem_filter] at hx <;>
    simpa using hx.2

theorem consistent_emptyState : consistent emptyState := by
  intro d
  simp [emptyState]

theorem consistent_removeDoc (s : IndexState) (d : DocId) (h : consistent s) :
    consistent (removeDoc s d) := by
  intro e
  by_cases hd : e = d
  · subst hd
    constructor
    · rintro ⟨m, hm, hmd⟩
      rw [removeDoc, List.mem_filter] at hm
      rw [hmd] at hm
      simp at hm
    · rintro ⟨r, hr, hrd⟩
      rw [removeDoc, List.mem_filter] at hr
      rw [hrd] at hr
      simp at hr
  · constructor
    · rintro ⟨m, hm, hmd⟩
      rw [removeDoc, List.mem_filter] at hm
      obtain ⟨r, hr, hrd⟩ := (h e).1 ⟨m, hm.1, hmd⟩
      refine ⟨r, List.mem_filter.2 ⟨hr, ?_⟩, hrd⟩
      simp [hrd, hd]
    · rintro ⟨r, hr, hrd⟩
      rw [removeDoc, List.mem_filter] at hr
      obtain ⟨m, hm, hmd⟩ := (h e).2 ⟨r, hr.1, hrd⟩
      refine ⟨m, List.mem_filter.2 ⟨hm, ?_⟩, hmd⟩
      simp [hmd, hd]

theorem writeChunksAux_spec (d : DocId) (writeOk : ℕ → Bool) :
    ∀ (cs : List (List Char)) (s : IndexState) (i : ℕ),
      ∃ rows : List ChunkRow,
        (writeChunksAux d writeOk s i cs).2 = ⟨s.content ++ rows, s.metadata⟩ ∧
        (∀ r ∈ rows, r.document_id = d) ∧
        ((writeChunksAux d writeOk s i cs).1 = none → rows.length = cs.length) := by
  intro cs
  induction cs with
  | nil =>
    intro s i
    exact ⟨[], by simp [writeChunksAux], by simp, by simp⟩
  | cons c cs ih =>
    intro s i
    by_cases hw : writeOk i
    · obtain ⟨rows, h1, h2, h3⟩ := ih ⟨s.content ++ [⟨d, i, c⟩], s.metadata⟩ (i + 1)
      refine ⟨⟨d, i, c⟩ :: rows, ?_, ?_, ?_⟩
      · simp only [writeChunksAux, hw, if_true, h1]
        simp
      · intro r hr
        rcases List.mem_cons.1 hr with h | h
        · rw [h]
        · exact h2 r h
      · intro hnone
        simp only [writeChunksAux, hw, if_true] at hnone
        simp [h3 hnone]
    · rw [Bool.not_eq_true] at hw
      refine ⟨[], ?_, by simp, ?_⟩
      · simp [writeChunksAux, hw]
      · simp [writeChunksAux, hw]

theorem writeChunksAux_all_ok (d : DocId) (writeOk : ℕ → Bool)
    (hok : ∀ i, writeOk i = true) :
    ∀ (cs : List (List Char)) (s : IndexState) (i : ℕ),
      (writeChunksAux d writeOk s i cs).1 = none := by
  intro cs
  induction cs with
  | nil =>
    intro s i
    simp [writeChunksAux]
  | cons c cs ih =>
    intro s i
    simp only [writeChunksAux, hok i, if_true]
    exact ih _ _

theorem chunk_ne_nil (text : List Char) (size overlap : ℕ) (h : overlap < size)
    (ht : text ≠ []) : chunk text size overlap ≠ [] := by
  have hn : text.length ≠ 0 := by simpa using ht
  rw [chunk, chunkSpans_closed_form text.length size overlap h]
  have hcnt : chunkCount text.length (size - overlap) ≠ 0 := by
    rw [chunkCount, if_neg hn]
    exact Nat.succ_ne_zero _
  simp [hcnt]

theorem removeDoc_append_rows (s : IndexState) (d : DocId) (rows : List ChunkRow)
    (h : ∀ r ∈ rows, r.document_id = d) :
    removeDoc ⟨s.content ++ rows, s.metadata⟩ d = removeDoc s d := by
  unfold removeDoc
  have hfil : rows.filter (fun r => !(decide (r.document_id = d))) = [] := by
    rw [List.filter_eq_nil_iff]
    intro r hr
    simp [h r hr]
  simp [List.filter_append, hfil]

/-- C4: a chunk embed/index-write failure (or any other hard failure) during
ingestion aborts the whole ingestion and rolls back every partial write made
for that `document_id`: afterwards neither the Content Index nor the Metadata
Index contains any row for it. -/
theorem ingest_failure_rolls_back (s : IndexState) (d : DocId) (text : List Char)
    (ai : Except AIError AIFields) (writeOk : ℕ → Bool) (metaWriteOk : Bool)
    (e : IngestError) (hfresh : noTrace s d)
    (hfail : (ingest s d text ai writeOk metaWriteOk).1 = some e) :
    noTrace (ingest s d text ai writeOk metaWriteOk).2 d := by
  unfold ingest at hfail ⊢
  by_cases ht : text.isEmpty
  · simpa [ht] using hfresh
  · rw [Bool.not_eq_true] at ht
    simp only [ht, Bool.false_eq_true, if_false] at hfail ⊢
    rcases hw : writeChunksAux d writeOk s 0 (chunk text CHUNK_SIZE CHUNK_OVERLAP)
      with ⟨res, s1⟩
    rcases res with _ | e'
    · cases metaWriteOk
      · exact noTrace_removeDoc s1 d
      · rw [hw] at hfail
        simp at hfail
    · exact noTrace_removeDoc s1 d

set_option maxRecDepth 8192 in
theorem ingest_failure_rolls_back_witness :
    noTrace emptyState ("doc1".data) ∧
    (ingest emptyState ("doc1".data) (List.replicate 800 'a')
        (Except.error AIError.timeout) (fun i => decide (i ≠ 1)) true).1 =
      some IngestError.indexWriteFailure ∧
    noTrace
      (ingest emptyState ("doc1".data) (List.replicate 800 'a')
        (Except.error AIError.timeout) (fun i => decide (i ≠ 1)) true).2
      ("doc1".data) :=
  ⟨by decide, by decide,
    ingest_failure_rolls_back emptyState ("doc1".data) (List.replicate 800 'a')
      (Except.error AIError.timeout) (fun i => decide (i ≠ 1)) true
      IngestError.indexWriteFailure (by decide) (by decide)⟩

theorem consistent_ingest (s : IndexState) (d : DocId) (text : List Char)
    (ai : Except AIError AIFields) (writeOk : ℕ → Bool) (metaWriteOk : Bool)
    (h : consistent s) :
    consistent (ingest s d text ai writeOk metaWriteOk).2 := by
  unfold ingest
  by_cases ht : text.isEmpty
  · simpa [ht] using h
  · rw [Bool.not_eq_true] at ht
    simp only [ht, Bool.false_eq_true, if_false]
    obtain ⟨rows, hs1, hrows, hlen⟩ :=
      writeChunksAux_spec d writeOk (chunk text CHUNK_SIZE CHUNK_OVERLAP) s 0
    rcases hw : writeChunksAux d writeOk s 0 (chunk text CHUNK_SIZE CHUNK_OVERLAP)
      with ⟨res, s1⟩
    rw [hw] at hs1 hlen
    replace hs1 : s1 = ⟨s.content ++ rows, s.metadata⟩ := hs1
    subst hs1
    rcases res with _ | e'
    · have hrowslen : rows.length = (chunk text CHUNK_SIZE CHUNK_OVERLAP).length :=
        hlen rfl
      cases metaWriteOk
      · show consistent (removeDoc ⟨s.content ++ rows, s.metadata⟩ d)
        rw [removeDoc_append_rows s d rows hrows]
        exact consistent_removeDoc s d h
      · show consistent ⟨s.content ++ rows, s.metadata ++ [applyAI d ai]⟩
        have hchne : chunk text CHUNK_SIZE CHUNK_OVERLAP ≠ [] :=
          chunk_ne_nil text CHUNK_SIZE CHUNK_OVERLAP (by decide) (by
            intro hte
            rw [hte] at ht
            simp at ht)
        have hrne : rows ≠ [] := by
          intro hre
          apply hchne
          rw [hre] at hrowslen
          exact (List.length_eq_zero.1 hrowslen.symm)
        rcases rows with _ | ⟨r0, rest⟩
        · exact absurd rfl hrne
        · intro e
          by_cases hd : e = d
          · constructor
            · intro _
              exact ⟨r0, by simp, (hrows r0 (by simp)).trans hd.symm⟩
            · intro _
              refine ⟨applyAI d ai, by simp, ?_⟩
              rw [hd]
              cases ai <;> rfl
          · constructor
            · rintro ⟨m, hm, hmd⟩
              simp only [List.mem_append, List.mem_singleton] at hm
              rcases hm with hm | hm
              · obtain ⟨r, hr, hrd⟩ := (h e).1 ⟨m, hm, hmd⟩
                exact ⟨r, by simp [hr], hrd⟩
              · exfalso
                apply hd
                rw [← hmd, hm]
                cases ai <;> rfl
            · rintro ⟨r, hr, hrd⟩
              simp only [List.mem_append] at hr
              rcases hr with hr | hr
              · obtain ⟨m, hm, hmd⟩ := (h e).2 ⟨r, hr, hrd⟩
                exact ⟨m, by simp [hm], hmd⟩
              · exfalso
                exact hd (by rw [← hrd, hrows r (by simpa using hr)])
    · show consistent (removeDoc ⟨s.content ++ rows, s.metadata⟩ d)
      rw [removeDoc_append_rows s d rows hrows]
      exact consistent_removeDoc s d h

/-- C5: in every state reachable by completed ingestions and deletions, a
`document_id` appears in the Metadata Index iff at least one chunk carrying
it appears in the Content Index; and immediately after a deletion, neither
index contains any trace of the deleted document. -/
theorem dual_index_consistency :
    (∀ s : IndexState, Reachable s → consistent s) ∧
    (∀ (s : IndexState) (d : DocId), noTrace (delete_document s d).2 d) := by
  constructor
  · intro s h
    induction h with
    | empty => exact consistent_emptyState
    | ingested s d text ai writeOk metaWriteOk _ ih =>
      exact consistent_ingest s d text ai writeOk metaWriteOk ih
    | deleted s d _ ih => exact consistent_removeDoc s d ih
  · intro s d
    exact noTrace_removeDoc s d

theorem dual_index_consistency_witness :
    consistent
      (ingest emptyState ("doc1".data) ("hello world".data)
        (Except.error AIError.timeout) (fun _ => true) true).2 :=
  dual_index_consistency.1 _
    (Reachable.ingested emptyState ("doc1".data) ("hello world".data)
      (Except.error AIError.timeout) (fun _ => true) true Reachable.empty)

/-- C6: `delete_document` always returns success — deleting an
already-deleted or never-existing `document_id` is a no-op success, never a
`notFound` error, and leaves both indexes unchanged — even though the
declared result type `DeleteResult` also offers `notFound`. -/
theorem delete_document_idempotent_noop (s : IndexState) (d : DocId) :
    (delete_document s d).1 = DeleteResult.success ∧
    (noTrace s d → (delete_document s d).2 = s) := by
  refine ⟨rfl, ?_⟩
  rintro ⟨hc, hm⟩
  have h1 : s.content.filter (fun r => !(decide (r.document_id = d))) = s.content :=
    List.filter_eq_self.2 (fun r hr => by simpa using hc r hr)
  have h2 : s.metadata.filter (fun m => !(decide (m.document_id = d))) = s.metadata :=
    List.filter_eq_self.2 (fun m hm' => by simpa using hm m hm')
  show removeDoc s d = s
  rw [removeDoc, h1, h2]

theorem delete_document_idempotent_noop_witness :
    noTrace emptyState ("ghost".data) ∧
    (delete_document emptyState ("ghost".data)).1 = DeleteResult.success ∧
    (delete_document emptyState ("ghost".data)).2 = emptyState :=
  ⟨by decide,
    (delete_document_idempotent_noop emptyState ("ghost".data)).1,
    (delete_document_idempotent_noop emptyState ("ghost".data)).2 (by decide)⟩

/-- C7: when AI metadata generation fails (timeout, unavailable or malformed
output) but the index writes succeed, ingestion still returns success and the
stored metadata record has `ai_summary = null` and
`ai_document_type = "other"`. -/
theorem ai_failure_degrades_not_aborts (s : IndexState) (d : DocId)
    (text : List Char) (err : AIError) (writeOk : ℕ → Bool)
    (htext : text ≠ []) (hok : ∀ i, writeOk i = true) :
    (ingest s d text (Except.error err) writeOk true).1 = none ∧
    ∃ m ∈ ((ingest s d text (Except.error err) writeOk true).2).metadata,
      m.document_id = d ∧ m.ai_summary = none ∧
      m.ai_document_type = ("other".data) := by
  have htl : text.isEmpty = false := by
    rcases text with _ | ⟨c, cs⟩
    · exact absurd rfl htext
    · rfl
  unfold ingest
  simp only [htl, Bool.false_eq_true, if_false]
  obtain ⟨rows, hs1, hrows, hlen⟩ :=
    writeChunksAux_spec d writeOk (chunk text CHUNK_SIZE CHUNK_OVERLAP) s 0
  rcases hw : writeChunksAux d writeOk s 0 (chunk text CHUNK_SIZE CHUNK_OVERLAP)
    with ⟨res, s1⟩
  have hres : res = none := by
    have hh := writeChunksAux_all_ok d writeOk hok (chunk text CHUNK_SIZE CHUNK_OVERLAP) s 0
    rw [hw] at hh
    exact hh
  subst hres
  rw [hw] at hs1
  replace hs1 : s1 = ⟨s.content ++ rows, s.metadata⟩ := hs1
  subst hs1
  refine ⟨rfl, applyAI d (Except.error err), ?_, rfl, rfl, rfl⟩
  show applyAI d (Except.error err) ∈ s.metadata ++ [applyAI d (Except.error err)]
  simp

theorem idLe_total : ∀ a b : List Char, idLe a b = true ∨ idLe b a = true := by
  intro a
  induction a with
  | nil =>
    intro b
    left
    rfl
  | cons x xs ih =>
    intro b
    cases b with
    | nil =>
      right
      rfl
    | cons y ys =>
      rcases Nat.lt_trichotomy x.toNat y.toNat with h | h | h
      · left
        simp [idLe, h]
      · have hx : ¬ x.toNat < y.toNat := by omega
        have hy : ¬ y.toNat < x.toNat := by omega
        rcases ih ys with hh | hh
        · left
          simp [idLe, hx, hy, hh]
        · right
          simp [idLe, hx, hy, hh]
      · right
        simp [idLe, h]

theorem idLe_trans : ∀ a b c : List Char,
    idLe a b = true → idLe b c = true → idLe a c = true := by
  intro a
  induction a with
  | nil =>
    intro b c _ _
    rfl
  | cons x xs ih =>
    intro b c h1 h2
    cases b with
    | nil => simp [idLe] at h1
    | cons y ys =>
      cases c with
      | nil => simp [idLe] at h2
      | cons z zs =>
        simp only [idLe] at h1 h2 ⊢
        by_cases hxy1 : x.toNat < y.toNat
        · by_cases hyz1 : y.toNat < z.toNat
          · simp [Nat.lt_trans hxy1 hyz1]
          · by_cases hyz2 : z.toNat < y.toNat
            · rw [if_neg hyz1, if_pos hyz2] at h2
              simp at h2
            · have hxz : x.toNat < z.toNat := by omega
              simp [hxz]
        · by_cases hxy2 : y.toNat < x.toNat
          · rw [if_neg hxy1, if_pos hxy2] at h1
            simp at h1
          · rw [if_neg hxy1, if_neg hxy2] at h1
            by_cases hyz1 : y.toNat < z.toNat
            · have hxz : x.toNat < z.toNat := by omega
              simp [hxz]
            · by_cases hyz2 : z.toNat < y.toNat
              · rw [if_neg hyz1, if_pos hyz2] at h2
                simp at h2
              · rw [if_neg hyz1, if_neg hyz2] at h2
                have hxz1 : ¬ x.toNat < z.toNat := by omega
                have hxz2 : ¬ z.toNat < x.toNat := by omega
                rw [if_neg hxz1, if_neg hxz2]
                exact ih ys zs h1 h2

instance rankRelTotal : IsTotal HybridResult rankRel := by
  constructor
  intro a b
  rcases lt_trichotomy a.aggregated_score b.aggregated_score with h | h | h
  · right
    exact Or.inl h
  · rcases idLe_total a.document_id b.document_id with hh | hh
    · left
      exact Or.inr ⟨h, hh⟩
    · right
      exact Or.inr ⟨h.symm, hh⟩
  · left
    exact Or.inl h

instance rankRelTrans : IsTrans HybridResult rankRel := by
  constructor
  intro a b c hab hbc
  rcases hab with h1 | ⟨h1e, h1l⟩
  · rcases hbc with h2 | ⟨h2e, h2l⟩
    · exact Or.inl (lt_trans h2 h1)
    · refine Or.inl ?_
      rw [← h2e]
      exact h1
  · rcases hbc with h2 | ⟨h2e, h2l⟩
    · refine Or.inl ?_
      rw [h1e]
      exact h2
    · exact Or.inr ⟨h1e.trans h2e, idLe_trans _ _ _ h1l h2l⟩

theorem findScore_mem_keys (l : List (DocId × ℚ)) (d : DocId) (v : ℚ)
    (h : findScore l d = some v) : d ∈ l.map Prod.fst := by
  induction l with
  | nil => simp [findScore] at h
  | cons p ps ih =>
    rw [findScore] at h
    by_cases hp : p.1 = d
    · simp [hp]
    · rw [if_neg hp] at h
      simp [ih h]

theorem mem_keysUnion_of_meta (meta content : List (DocId × ℚ)) (d : DocId)
    (v : ℚ) (h : findScore meta d = some v) : d ∈ keysUnion meta content := by
  rw [keysUnion]
  exact List.mem_append_left _ (findScore_mem_keys meta d v h)

theorem mem_keysUnion_of_content (meta content : List (DocId × ℚ)) (d : DocId)
    (v : ℚ) (h : findScore content d = some v) : d ∈ keysUnion meta content := by
  rw [keysUnion]
  by_cases hm : d ∈ meta.map Prod.fst
  · exact List.mem_append_left _ hm
  · refine List.mem_append_right _ ?_
    rw [List.mem_filter]
    exact ⟨findScore_mem_keys content d v h, by simp [hm]⟩

theorem mem_hybridRank_of_aggScore (meta content : List (DocId × ℚ)) (d : DocId)
    (p : ℚ × ScoreSource) (h : aggScore meta content d = some p)
    (hk : d ∈ keysUnion meta content) :
    (⟨d, p.1, p.2⟩ : HybridResult) ∈ hybridRank meta content := by
  have hmem : (⟨d, p.1, p.2⟩ : HybridResult) ∈ hybridAggregate meta content := by
    rw [hybridAggregate]
    refine List.mem_filterMap.2 ⟨d, hk, ?_⟩
    rw [h]
    rfl
  exact ((List.perm_insertionSort rankRel _).mem_iff).2 hmem

/-- C1: hybrid retrieval — a document present in both result sets gets
`aggregated_score = w_meta * document_score + w_content * chunk_score` with
the default equal weighting (`w_meta = w_content`); a document present in
only one result set is still included with that set's score (tagged with the
supplying path); the final ranking is sorted by `aggregated_score`
descending with ties broken by `document_id` lexical order; and for document
A (metadata score 0.9, no chunk match) and document B (metadata score 0.3,
chunk score 0.95), hybrid ranks B (score 1.25) above A and still includes
A. -/
theorem hybrid_merge_scores_and_ranks (meta content : List (DocId × ℚ))
    (d : DocId) (ds cs : ℚ) :
    w_meta = w_content
    ∧ (findScore meta d = some ds → findScore content d = some cs →
        (⟨d, w_meta * ds + w_content * cs, ScoreSource.both⟩ : HybridResult) ∈
          hybridRank meta content)
    ∧ (findScore meta d = some ds → findScore content d = none →
        (⟨d, ds, ScoreSource.metadataOnly⟩ : HybridResult) ∈ hybridRank meta content)
    ∧ (findScore meta d = none → findScore content d = some cs →
        (⟨d, cs, ScoreSource.contentOnly⟩ : HybridResult) ∈ hybridRank meta content)
    ∧ List.Sorted rankRel (hybridRank meta content)
    ∧ hybridRank [(("A".data : DocId), (9/10 : ℚ)), ("B".data, 3/10)]
        [("B".data, 19/20)] =
      [⟨"B".data, 5/4, ScoreSource.both⟩,
        ⟨"A".data, 9/10, ScoreSource.metadataOnly⟩] := by
  refine ⟨rfl, ?_, ?_, ?_, List.sorted_insertionSort rankRel _, ?_⟩
  · intro h1 h2
    refine mem_hybridRank_of_aggScore meta content d
      (w_meta * ds + w_content * cs, ScoreSource.both) ?_
      (mem_keysUnion_of_meta meta content d ds h1)
    rw [aggScore, h1, h2]
  · intro h1 h2
    refine mem_hybridRank_of_aggScore meta content d (ds, ScoreSource.metadataOnly) ?_
      (mem_keysUnion_of_meta meta content d ds h1)
    rw [aggScore, h1, h2]
  · intro h1 h2
    refine mem_hybridRank_of_aggScore meta content d (cs, ScoreSource.contentOnly) ?_
      (mem_keysUnion_of_content meta content d cs h2)
    rw [aggScore, h1, h2]
  · have hagg : hybridAggregate [(("A".data : DocId), (9/10 : ℚ)), ("B".data, 3/10)]
        [("B".data, 19/20)] =
        [⟨"A".data, 9/10, ScoreSource.metadataOnly⟩,
          ⟨"B".data, w_meta * (3/10) + w_content * (19/20), ScoreSource.both⟩] := rfl
    have hnot : ¬ rankRel ⟨"A".data, 9/10, ScoreSource.metadataOnly⟩
        ⟨"B".data, w_meta * (3/10) + w_content * (19/20), ScoreSource.both⟩ := by
      rw [rankRel]
      simp only [not_or, not_and]
      constructor
      · norm_num [w_meta, w_content]
      · intro he
        exact absurd he (by norm_num [w_meta, w_content])
    have hscore : w_meta * ((3 : ℚ)/10) + w_content * (19/20) = 5/4 := by
      norm_num [w_meta, w_content]
    rw [hybridRank, hagg]
    simp only [List.insertionSort, List.orderedInsert]
    rw [if_neg hnot, hscore]

theorem hybrid_merge_scores_and_ranks_witness :
    findScore [(("A".data : DocId), (9/10 : ℚ)), ("B".data, 3/10)] ("B".data) =
      some (3/10)
    ∧ (⟨"B".data, w_meta * (3/10) + w_content * (19/20), ScoreSource.both⟩ :
        HybridResult) ∈
      hybridRank [(("A".data : DocId), (9/10 : ℚ)), ("B".data, 3/10)]
        [("B".data, 19/20)] :=
  ⟨rfl,
    (hybrid_merge_scores_and_ranks
      [(("A".data : DocId), (9/10 : ℚ)), ("B".data, 3/10)] [("B".data, 19/20)]
      ("B".data) (3/10) (19/20)).2.1 rfl rfl⟩

theorem ai_failure_degrades_not_aborts_witness :
    ("hello".data ≠ ([] : List Char)) ∧
    (ingest emptyState ("doc3".data) ("hello".data)
        (Except.error AIError.timeout) (fun _ => true) true).1 = none :=
  ⟨by decide,
    (ai_failure_degrades_not_aborts emptyState ("doc3".data) ("hello".data)
      AIError.timeout (fun _ => true) (by decide) (fun _ => rfl)).1⟩

/-- C9 counterexample: at `sizeInMb = 1` the `utils.ts` copy renders
"1.0 MB" while the detail-page copy renders "1.00 MB", so the three
`formatFileSize` copies are not all extensionally equal. -/
theorem formatFileSize_detail_differs :
    formatFileSize_utils 1 ≠ formatFileSize_detail 1 := by
  have h1 : formatFileSize_utils 1 = ("1.0 MB".data) := by
    rw [formatFileSize_utils, if_neg (by norm_num), toFixedChars,
      if_neg (by norm_num)]
    norm_num
    decide
  have h2 : formatFileSize_detail 1 = ("1.00 MB".data) := by
    rw [formatFileSize_detail, if_neg (by norm_num), toFixedChars,
      if_neg (by norm_num)]
    norm_num
    decide
  rw [h1, h2]
  decide

/-- C9 (amended): the `utils.ts` and document-card copies of
`formatFileSize` are extensionally equal for every nonnegative size, and the
detail-page copy agrees with them on sizes below 1 MB; at or above 1 MB the
detail-page copy renders two decimal places where the others render one, so
the three copies are not all extensionally equal. -/
theorem formatFileSize_utils_card_agree (x : ℚ) (hx : 0 ≤ x) :
    formatFileSize_utils x = formatFileSize_card x
    ∧ (x < 1 → formatFileSize_detail x = formatFileSize_utils x) := by
  refine ⟨rfl, ?_⟩
  intro hlt
  rw [formatFileSize_detail, formatFileSize_utils, if_pos hlt, if_pos hlt]

theorem formatFileSize_utils_card_agree_witness :
    (0 : ℚ) ≤ 1 / 2 ∧
    formatFileSize_utils (1 / 2) = formatFileSize_card (1 / 2) :=
  ⟨by norm_num, (formatFileSize_utils_card_agree (1 / 2) (by norm_num)).1⟩

theorem nextPendingItem_spec (q : List QueuedFile) (jt : QueuedFile)
    (h : nextPendingItem q = some jt) :
    jt ∈ q ∧ jt.status = .pending ∧ jt.validationError = none := by
  rw [nextPendingItem] at h
  have hmem := List.mem_of_find?_eq_some h
  have hp := List.find?_some h
  simp only [Bool.and_eq_true, decide_eq_true_eq,
    Option.isNone_iff_eq_none] at hp
  exact ⟨hmem, hp.1, hp.2⟩

theorem mem_updateFile_of_ne (q : List QueuedFile) (i : ℕ)
    (f : QueuedFile → QueuedFile) (it : QueuedFile)
    (hit : it ∈ q) (hne : it.id ≠ i) : it ∈ updateFile q i f := by
  rw [updateFile]
  refine List.mem_map.2 ⟨it, hit, ?_⟩
  rw [if_neg hne]

theorem updateFile_map_id (q : List QueuedFile) (i : ℕ)
    (f : QueuedFile → QueuedFile) (hf : ∀ x, (f x).id = x.id) :
    (updateFile q i f).map (fun x => x.id) = q.map (fun x => x.id) := by
  rw [updateFile, List.map_map]
  apply List.map_congr_left
  intro x _
  by_cases hx : x.id = i
  · simp [Function.comp, hx, hf]
  · simp [Function.comp, hx]

theorem processQueueAux_succ_some (upload : ℕ → Except (List Char) (List Char))
    (fuel : ℕ) (q : List QueuedFile) (jt : QueuedFile)
    (hnp : nextPendingItem q = some jt) :
    processQueueAux upload (fuel + 1) q =
      match upload jt.id with
      | .ok r =>
        ((processQueueAux upload fuel
            (updateFile (updateFile q jt.id markUploading) jt.id
              (markCompleted r))).1,
          jt.id :: (processQueueAux upload fuel
            (updateFile (updateFile q jt.id markUploading) jt.id
              (markCompleted r))).2)
      | .error msg =>
        ((processQueueAux upload fuel
            (updateFile (updateFile q jt.id markUploading) jt.id
              (markFailed msg))).1,
          jt.id :: (processQueueAux upload fuel
            (updateFile (updateFile q jt.id markUploading) jt.id
              (markFailed msg))).2) := by
  rw [processQueueAux, hnp]

theorem processQueueAux_skips_validation_rejected
    (upload : ℕ → Except (List Char) (List Char)) :
    ∀ (fuel : ℕ) (q : List QueuedFile) (it : QueuedFile), it ∈ q →
      it.validationError.isSome = true →
      ((q.map (fun x => x.id)).Nodup) →
      it.id ∉ (processQueueAux upload fuel q).2 := by
  intro fuel
  induction fuel with
  | zero =>
    intro q it _ _ _
    simp [processQueueAux]
  | succ fuel ih =>
    intro q it hit hval hnodup
    cases hnp : nextPendingItem q with
    | none =>
      rw [processQueueAux, hnp]
      simp
    | some jt =>
      rw [processQueueAux_succ_some upload fuel q jt hnp]
      obtain ⟨hjmem, hjstat, hjval⟩ := nextPendingItem_spec q jt hnp
      have hne : it.id ≠ jt.id := by
        intro he
        have heq : it = jt :=
          List.inj_on_of_nodup_map hnodup hit hjmem he
        rw [heq, hjval] at hval
        simp at hval
      have hmem2 : ∀ g : QueuedFile → QueuedFile,
          it ∈ updateFile (updateFile q jt.id markUploading) jt.id g :=
        fun g => mem_updateFile_of_ne _ jt.id g it
          (mem_updateFile_of_ne q jt.id markUploading it hit hne) hne
      have hnodup2 : ∀ g : QueuedFile → QueuedFile, (∀ x, (g x).id = x.id) →
          ((updateFile (updateFile q jt.id markUploading) jt.id g).map
            (fun x => x.id)).Nodup := by
        intro g hg
        rw [updateFile_map_id _ jt.id g hg,
          updateFile_map_id q jt.id markUploading (fun x => rfl)]
        exact hnodup
      cases hupl : upload jt.id with
      | ok r =>
        intro hmem
        rcases List.mem_cons.1 hmem with he | hm
        · exact hne he
        · exact ih _ it (hmem2 (markCompleted r)) hval
            (hnodup2 (markCompleted r) (fun x => rfl)) hm
      | error msg =>
        intro hmem
        rcases List.mem_cons.1 hmem with he | hm
        · exact hne he
        · exact ih _ it (hmem2 (markFailed msg)) hval
            (hnodup2 (markFailed msg) (fun x => rfl)) hm

/-- C10: a file failing client-side validation is enqueued with status
"failed" and its validation error recorded; the queue processor only selects
items whose status is "pending" and whose `validationError` is absent; and
consequently an enqueued item carrying a validation error is never passed to
the upload mutation. -/
theorem validation_rejected_never_uploaded (q : List QueuedFile)
    (newId : ℕ) (v : ValidationResult)
    (upload : ℕ → Except (List Char) (List Char)) (it : QueuedFile)
    (hv : v.isValid = false)
    (hit : it ∈ q) (hval : it.validationError.isSome = true)
    (hnodup : (q.map (fun x => x.id)).Nodup) :
    (enqueueFile newId v).status = .failed
    ∧ (enqueueFile newId v).validationError = v.error
    ∧ (∀ jt, nextPendingItem q = some jt →
        jt.status = .pending ∧ jt.validationError = none)
    ∧ it.id ∉ (processQueue upload q).2 := by
  refine ⟨?_, rfl, ?_, ?_⟩
  · rw [enqueueFile]
    simp [hv]
  · intro jt hjt
    exact (nextPendingItem_spec q jt hjt).2
  · exact processQueueAux_skips_validation_rejected upload q.length q it hit hval hnodup

theorem validation_rejected_never_uploaded_witness :
    (⟨0, UploadStatus.failed, 0, some ("bad type".data), none,
        some ("bad type".data)⟩ : QueuedFile) ∈
      [(⟨0, UploadStatus.failed, 0, some ("bad type".data), none,
          some ("bad type".data)⟩ : QueuedFile),
        ⟨1, UploadStatus.pending, 0, none, none, none⟩]
    ∧ (0 : ℕ) ∉
      (processQueue (fun _ => Except.ok ("uploaded".data))
        [(⟨0, UploadStatus.failed, 0, some ("bad type".data), none,
            some ("bad type".data)⟩ : QueuedFile),
          ⟨1, UploadStatus.pending, 0, none, none, none⟩]).2 :=
  ⟨by decide,
    (validation_rejected_never_uploaded
      [⟨0, UploadStatus.failed, 0, some ("bad type".data), none,
          some ("bad type".data)⟩,
        ⟨1, UploadStatus.pending, 0, none, none, none⟩]
      7 ⟨false, some ("bad type".data)⟩
      (fun _ => Except.ok ("uploaded".data))
      ⟨0, UploadStatus.failed, 0, some ("bad type".data), none,
        some ("bad type".data)⟩
      rfl (by decide) rfl (by decide)).2.2.2⟩

end RagExplorer
